import Mathlib

/-!
Verification development for the Stir Trek 2026 Schedule Builder core:
the schedule validator, the speaker-conflict analyzer, the track
distribution analyzer, the append-only version store, and the diff
engine.  All definitions are shallow embeddings of the corresponding
functions in `schedule_builder.py` (and of `getDiffSet` from the
embedded HTML/JS presentation code).
-/

/-- A catalog session record, mirroring the dicts built by
`load_sessions`: fields `id`, `title`, `description`, `speakers`,
`track` (all strings). -/
structure Session where
  id : String
  title : String
  description : String
  speakers : String
  track : String
deriving DecidableEq, Repr

/-- A candidate schedule: a mapping from slot name to the ordered
sequence of session ids assigned to that slot, modelled as an
association list.  A faithful Python/JSON dict has pairwise distinct
keys; theorems that need dict semantics carry a `Nodup` hypothesis on
the key list. -/
abbrev Schedule := List (String × List String)

/-- Validation error records.  The Python validator appends formatted
strings; each constructor here carries exactly the data interpolated
into the corresponding f-string in `validate_schedule`.  The
`missingSessions` and `unknownIds` payloads are Python sets, modelled
as `Finset`; `duplicateIds` is a Python list in `Counter` (first
occurrence) order. -/
inductive VError where
  | slotCount (got : Nat)
  | slotLen (slot : String) (got : Nat)
  | dupSpeaker (slot : String) (speaker : String)
  | unknownId (slot : String) (sid : String)
  | missingSessions (ids : Finset String)
  | unknownIds (ids : Finset String)
  | duplicateIds (ids : List String)
deriving DecidableEq

/-- `session_map[sid]`: the Python dict comprehension
`{s["id"]: s for s in sessions}` keeps the last session with a given
id, so lookup finds the last matching record. -/
def lookupSession (sessions : List Session) (sid : String) : Option Session :=
  sessions.reverse.find? (fun s => s.id = sid)

/-- The inner per-slot loop of `validate_schedule`: walk the slot's ids
in order keeping the `speakers_in_slot` list; a known id whose speaker
was already seen emits a duplicate-speaker error, an unknown id emits
an unknown-id error and is skipped for speaker bookkeeping. -/
def slotErrors (sessions : List Session) (slot : String) :
    List String → List String → List VError
  | _, [] => []
  | seen, sid :: rest =>
    match lookupSession sessions sid with
    | some s =>
        (if s.speakers ∈ seen then [VError.dupSpeaker slot s.speakers] else [])
          ++ slotErrors sessions slot (seen ++ [s.speakers]) rest
    | none => VError.unknownId slot sid :: slotErrors sessions slot seen rest

/-- `all_ids = set(session_map.keys())`. -/
def catalogIds (sessions : List Session) : Finset String :=
  (sessions.map (fun s => s.id)).toFinset

/-- Code-point lexicographic comparison on character lists: the order
Python's `sorted` (and JS `Array.sort` on BMP strings) uses for
strings. -/
def charsLe : List Char → List Char → Bool
  | [], _ => true
  | _ :: _, [] => false
  | a :: as, b :: bs =>
    if a.toNat < b.toNat then true
    else if b.toNat < a.toNat then false
    else charsLe as bs

/-- Python string comparison: lexicographic on code points. -/
def strLe (a b : String) : Bool := charsLe a.data b.data

/-- Iterating a dict `for slot_name in sorted(schedule.keys())` is,
for distinct keys, the same as traversing the association list sorted
by key. -/
def sortedSchedule (schedule : Schedule) : Schedule :=
  schedule.insertionSort (fun p q => strLe p.1 q.1 = true)

/-- First-occurrence deduplication, matching the key order of a Python
`Counter` / insertion-ordered dict. -/
def firstOccAux : List String → List String → List String
  | _, [] => []
  | seen, a :: l =>
    if a ∈ seen then firstOccAux seen l else a :: firstOccAux (a :: seen) l

def firstOccurrences (l : List String) : List String := firstOccAux [] l

/-- `dupes = [sid for sid, c in Counter(assigned_ids).items() if c > 1]`. -/
def dupeIds (assigned : List String) : List String :=
  (firstOccurrences assigned).filter (fun sid => 1 < assigned.count sid)

/-- One slot's contribution to the error list: the length check
followed by the speaker/unknown-id walk. -/
def slotBlock (sessions : List Session) (p : String × List String) :
    List VError :=
  (if p.2.length ≠ 8 then [VError.slotLen p.1 p.2.length] else [])
    ++ slotErrors sessions p.1 [] p.2

/-- `assigned_ids` after the loop: all ids of all slots, slots taken in
sorted-key order. -/
def assignedIds (schedule : Schedule) : List String :=
  (sortedSchedule schedule).flatMap (fun p => p.2)

/-- `missing = all_ids - assigned_set`. -/
def missingSet (schedule : Schedule) (sessions : List Session) : Finset String :=
  catalogIds sessions \ (assignedIds schedule).toFinset

/-- `extra = assigned_set - all_ids`. -/
def extraSet (schedule : Schedule) (sessions : List Session) : Finset String :=
  (assignedIds schedule).toFinset \ catalogIds sessions

/-- The full error sequence collected by `validate_schedule`, in the
order the Python code appends: slot-count error, per-slot blocks in
sorted-key order, then the three aggregate checks. -/
def validationErrors (schedule : Schedule) (sessions : List Session) :
    List VError :=
  (if schedule.length ≠ 7 then [VError.slotCount schedule.length] else [])
    ++ (sortedSchedule schedule).flatMap (slotBlock sessions)
    ++ (if missingSet schedule sessions ≠ ∅ then
          [VError.missingSessions (missingSet schedule sessions)] else [])
    ++ (if extraSet schedule sessions ≠ ∅ then
          [VError.unknownIds (extraSet schedule sessions)] else [])
    ++ (if dupeIds (assignedIds schedule) ≠ [] then
          [VError.duplicateIds (dupeIds (assignedIds schedule))] else [])

/-- Shallow embedding of `validate_schedule(schedule, sessions)`:
`return len(errors) == 0, errors`. -/
def validate_schedule (schedule : Schedule) (sessions : List Session) :
    Bool × List VError :=
  ((validationErrors schedule sessions).isEmpty, validationErrors schedule sessions)

/-- Shallow embedding of `find_multi_session_speakers(sessions)`: the
`defaultdict` groups sessions by the exact `speakers` string, keys in
first-appearance order, each value collecting ids in catalog order; the
final comprehension keeps groups with more than one id. -/
def find_multi_session_speakers (sessions : List Session) :
    List (String × List String) :=
  ((firstOccurrences (sessions.map (fun s => s.speakers))).map (fun sp =>
      (sp, (sessions.filter (fun s => s.speakers = sp)).map (fun s => s.id))))
    |>.filter (fun p => 1 < p.2.length)

/-- The track list of one slot: `session_map[str(sid)]["track"]` for
each assigned id found in the catalog, unknown ids skipped. -/
def slotTracks (sessions : List Session) (ids : List String) : List String :=
  ids.filterMap (fun sid => (lookupSession sessions sid).map (fun s => s.track))

/-- `Counter(tracks)` as an association list in first-occurrence
order. -/
def counterOf (l : List String) : List (String × Nat) :=
  (firstOccurrences l).map (fun t => (t, l.count t))

/-- Shallow embedding of `compute_track_stats(schedule, sessions)`:
per sorted slot, the `Counter` of tracks of catalog-known assigned
sessions, accumulating `total_doublings += c - 1` for every count
`c > 1`. -/
def compute_track_stats (schedule : Schedule) (sessions : List Session) :
    List (String × List (String × Nat)) × Nat :=
  (sortedSchedule schedule).foldl
    (fun acc p =>
      let counts := counterOf (slotTracks sessions p.2)
      (acc.1 ++ [(p.1, counts)],
       counts.foldl (fun td q => if 1 < q.2 then td + (q.2 - 1) else td) acc.2))
    ([], 0)

/-- A stored schedule version, mirroring the dicts written to
`versions.json` by `save_version`. -/
structure Version where
  version : Int
  label : String
  description : String
  created : String
  schedule : Schedule
deriving DecidableEq, Inhabited

/-- `load_versions()`: the parsed store file when it exists, else the
empty list.  The persisted file state is passed explicitly as
`Option (List Version)` (`none` = no file yet). -/
def load_versions (store : Option (List Version)) : List Version :=
  store.getD []

/-- `max(seq, default=0)`: the default applies only to the empty
sequence; a non-empty sequence yields its true maximum (even when all
elements are negative). -/
def maxOr0 : List Int → Int
  | [] => 0
  | x :: xs => xs.foldl max x

/-- `max((v["version"] for v in versions), default=0) + 1`. -/
def next_version (versions : List Version) : Int :=
  maxOr0 (versions.map (fun v => v.version)) + 1

/-- Shallow embedding of `save_version(schedule, label, description)`.
The current UTC timestamp is an input; the result is the returned
version number paired with the rewritten store contents. -/
def save_version (store : Option (List Version)) (schedule : Schedule)
    (label description created : String) : Int × List Version :=
  let versions := load_versions store
  let next_ver : Int := next_version versions
  let newV : Version :=
    { version := next_ver
      label := if label = "" then "Version " ++ toString next_ver else label
      description := description
      created := created
      schedule := schedule }
  (next_ver, versions ++ [newV])

/-- JS `prev[slot] || []` (and `cur[slot]` under unique keys): the
first value stored for a key, or `[]` when the key is absent. -/
def slotIdsOf (s : Schedule) (k : String) : List String :=
  (s.lookup k).getD []

/-- Core of the JS `getDiffSet` loop: for each slot of the current
schedule (sorted keys) and each position `0 ≤ i < 8`, the coordinate is
collected when `curIds[i] !== prevIds[i]`, an out-of-range index
reading as JS `undefined` (here `Option.none`). -/
def diffSchedules (cur prev : Schedule) : Finset (String × Nat) :=
  ((sortedSchedule cur).flatMap (fun p =>
      (List.range 8).filterMap (fun i =>
        if p.2[i]? ≠ (slotIdsOf prev p.1)[i]? then some (p.1, i) else none)))
    |>.toFinset

/-- Shallow embedding of JS `getDiffSet()`: empty when the current
version is the first one (`curIdx <= 0`) or diff display is off,
otherwise the cell diff between the current version's schedule and its
immediate predecessor's. -/
def getDiffSet (versions : List Version) (curIdx : Nat) (showDiff : Bool) :
    Finset (String × Nat) :=
  if curIdx = 0 ∨ showDiff = false then ∅
  else
    diffSchedules (versions.getD curIdx default).schedule
      (versions.getD (curIdx - 1) default).schedule

/-- Modelled from the spec: the set of all `(slot, position)`
coordinates at which two schedules disagree on the assigned session id,
"a slot or position missing on one side treated as a non-matching
value".  Only coordinates whose slot occurs in either schedule and
whose position is below either side's sequence length can disagree, so
the search domain is finite. -/
def allDiffCoords (cur prev : Schedule) : Finset (String × Nat) :=
  (((cur ++ prev).flatMap (fun p =>
      (List.range
          (max (slotIdsOf cur p.1).length (slotIdsOf prev p.1).length)).map
        (fun i => (p.1, i)))).toFinset).filter
    (fun c => (slotIdsOf cur c.1)[c.2]? ≠ (slotIdsOf prev c.1)[c.2]?)

/-- The mutable state visible to `validate_schedule` in Python: its two
input objects plus the local accumulator lists it appends to.  Used to
state that the validator never writes to its inputs. -/
structure VState where
  schedule : Schedule
  sessions : List Session
  errors : List VError
  assigned : List String

/-- One iteration of the validator's slot loop as a state transformer:
append the length error if any, extend `assigned_ids`, then run the
speaker/unknown-id walk, reading the catalog from the state. -/
def processSlotSt (st : VState) (p : String × List String) : VState :=
  let st1 :=
    if p.2.length ≠ 8 then
      { st with errors := st.errors ++ [VError.slotLen p.1 p.2.length] }
    else st
  let st2 := { st1 with assigned := st1.assigned ++ p.2 }
  { st2 with errors := st2.errors ++ slotErrors st2.sessions p.1 [] p.2 }

/-- `validate_schedule` replayed as a sequence of state updates over
`VState`, returning the final state together with the returned pair.
Every list the source mutates is a field of the state; the inputs are
only ever read. -/
def validate_schedule_run (schedule : Schedule) (sessions : List Session) :
    VState × (Bool × List VError) :=
  let st0 : VState :=
    { schedule := schedule, sessions := sessions
      errors := if schedule.length ≠ 7 then [VError.slotCount schedule.length] else []
      assigned := [] }
  let st1 := (sortedSchedule st0.schedule).foldl processSlotSt st0
  let allIds := catalogIds st1.sessions
  let aset := st1.assigned.toFinset
  let missing := allIds \ aset
  let st2 := { st1 with errors := st1.errors ++
    (if missing ≠ ∅ then [VError.missingSessions missing] else []) }
  let extra := aset \ allIds
  let st3 := { st2 with errors := st2.errors ++
    (if extra ≠ ∅ then [VError.unknownIds extra] else []) }
  let dupes := dupeIds st3.assigned
  let st4 := { st3 with errors := st3.errors ++
    (if dupes ≠ [] then [VError.duplicateIds dupes] else []) }
  (st4, (st4.errors.isEmpty, st4.errors))

/-- The speakers of the catalog-known ids of a slot, in position
order: the contents of `speakers_in_slot` after the walk. -/
def speakersOf (sessions : List Session) (ids : List String) : List String :=
  ids.filterMap (fun sid => (lookupSession sessions sid).map (fun s => s.speakers))

/-- Discriminator for duplicate-speaker error records. -/
def isDupSpeakerE : VError → Bool
  | VError.dupSpeaker _ _ => true
  | _ => false

/-- A 56-session demo catalog with ids `"1".."56"`, all speakers
distinct. -/
def demoSessions : List Session :=
  (List.range 56).map (fun i =>
    { id := toString (i + 1), title := "", description := "",
      speakers := "sp" ++ toString (i + 1), track := "T" })

/-- Slots 2–7 of a passing demo schedule over `demoSessions`. -/
def demoRest : Schedule :=
  (List.range 6).map (fun k =>
    ("slot_" ++ toString (k + 2),
     (List.range 8).map (fun j => toString (8 * (k + 1) + j + 1))))

section Lemmas

theorem sortedSchedule_perm (s : Schedule) : (sortedSchedule s).Perm s :=
  List.perm_insertionSort _ _

theorem mem_sortedSchedule {p : String × List String} {s : Schedule} :
    p ∈ sortedSchedule s ↔ p ∈ s :=
  (sortedSchedule_perm s).mem_iff

theorem length_sortedSchedule (s : Schedule) :
    (sortedSchedule s).length = s.length :=
  (sortedSchedule_perm s).length_eq

theorem flatMap_perm_of_perm {α β : Type} {l₁ l₂ : List α} (f : α → List β)
    (h : l₁.Perm l₂) : (l₁.flatMap f).Perm (l₂.flatMap f) := by
  simpa [List.flatMap_def] using (h.map f).flatten

theorem assignedIds_perm (s : Schedule) :
    (assignedIds s).Perm (s.flatMap (fun p => p.2)) :=
  flatMap_perm_of_perm _ (sortedSchedule_perm s)

theorem mem_firstOccAux (a : String) (l : List String) : ∀ (seen : List String),
    (a ∈ firstOccAux seen l ↔ a ∈ l ∧ a ∉ seen) := by
  induction l with
  | nil => intro seen; simp [firstOccAux]
  | cons b l ih =>
    intro seen
    rw [firstOccAux]
    by_cases hb : b ∈ seen
    · rw [if_pos hb, ih]
      simp only [List.mem_cons]
      constructor
      · rintro ⟨h1, h2⟩
        exact ⟨Or.inr h1, h2⟩
      · rintro ⟨h1 | h1, h2⟩
        · exact absurd (h1 ▸ hb) h2
        · exact ⟨h1, h2⟩
    · rw [if_neg hb]
      simp only [List.mem_cons, ih, List.mem_cons]
      constructor
      · rintro (h | ⟨h1, h2⟩)
        · exact ⟨Or.inl h, h ▸ hb⟩
        · exact ⟨Or.inr h1, fun hc => h2 (Or.inr hc)⟩
      · rintro ⟨h1 | h1, h2⟩
        · exact Or.inl h1
        · by_cases hab : a = b
          · exact Or.inl hab
          · exact Or.inr ⟨h1, fun hc => hc.elim hab h2⟩

theorem mem_firstOccurrences {a : String} {l : List String} :
    a ∈ firstOccurrences l ↔ a ∈ l := by
  simp [firstOccurrences, mem_firstOccAux]

theorem nodup_firstOccAux (l : List String) : ∀ (seen : List String),
    (firstOccAux seen l).Nodup := by
  induction l with
  | nil => intro seen; simp [firstOccAux]
  | cons b l ih =>
    intro seen
    rw [firstOccAux]
    by_cases hb : b ∈ seen
    · rw [if_pos hb]; exact ih seen
    · rw [if_neg hb]
      refine List.Nodup.cons ?_ (ih (b :: seen))
      intro hc
      exact ((mem_firstOccAux b l (b :: seen)).mp hc).2 (List.mem_cons_self b seen)

theorem nodup_firstOccurrences (l : List String) :
    (firstOccurrences l).Nodup :=
  nodup_firstOccAux l []

theorem dupeIds_eq_nil_iff {l : List String} : dupeIds l = [] ↔ l.Nodup := by
  rw [dupeIds, List.filter_eq_nil_iff]
  constructor
  · intro h
    rw [List.nodup_iff_count_le_one]
    intro a
    by_cases ha : a ∈ l
    · have := h a (mem_firstOccurrences.mpr ha)
      simpa using this
    · simp [List.count_eq_zero.mpr ha]
  · intro h a _
    have := (List.nodup_iff_count_le_one.mp h) a
    simp
    omega

theorem ite_singleton_eq_nil_iff {α : Type} {c : Prop} [Decidable c] {x : α} :
    (if c then [x] else []) = [] ↔ ¬ c := by
  split <;> simp_all

theorem speakersOf_cons_none {sessions : List Session} {sid : String}
    (rest : List String) (h : lookupSession sessions sid = none) :
    speakersOf sessions (sid :: rest) = speakersOf sessions rest := by
  simp [speakersOf, List.filterMap_cons, h]

theorem speakersOf_cons_some {sessions : List Session} {sid : String}
    {s : Session} (rest : List String) (h : lookupSession sessions sid = some s) :
    speakersOf sessions (sid :: rest) = s.speakers :: speakersOf sessions rest := by
  simp [speakersOf, List.filterMap_cons, h]

theorem slotErrors_eq_nil_iff (sessions : List Session) (slot : String)
    (ids : List String) : ∀ (seen : List String),
    (slotErrors sessions slot seen ids = [] ↔
      (∀ sid ∈ ids, (lookupSession sessions sid).isSome) ∧
      (speakersOf sessions ids).Nodup ∧
      (∀ sp ∈ speakersOf sessions ids, sp ∉ seen)) := by
  induction ids with
  | nil => intro seen; simp [slotErrors, speakersOf]
  | cons sid rest ih =>
    intro seen
    rw [slotErrors]
    cases hl : lookupSession sessions sid with
    | none =>
      simp only [speakersOf_cons_none rest hl]
      constructor
      · intro h; cases h
      · rintro ⟨h1, -, -⟩
        have := h1 sid (List.mem_cons_self sid rest)
        rw [hl] at this
        cases this
    | some s =>
      simp only [speakersOf_cons_some rest hl]
      by_cases hsp : s.speakers ∈ seen
      · rw [if_pos hsp]
        simp only [List.cons_append]
        constructor
        · intro h; cases h
        · rintro ⟨-, -, h3⟩
          exact absurd hsp (h3 s.speakers (List.mem_cons_self _ _))
      · rw [if_neg hsp, List.nil_append, ih (seen ++ [s.speakers])]
        constructor
        · rintro ⟨h1, h2, h3⟩
          have hxns : s.speakers ∉ speakersOf sessions rest := by
            intro hc
            exact (h3 s.speakers hc) (by simp)
          refine ⟨?_, List.Nodup.cons hxns h2, ?_⟩
          · intro sid' hmem
            rcases List.mem_cons.mp hmem with h | h
            · rw [h, hl]; rfl
            · exact h1 sid' h
          · intro sp hmem
            rcases List.mem_cons.mp hmem with h | h
            · exact h ▸ hsp
            · intro hc
              exact (h3 sp h) (by simp [hc])
        · rintro ⟨h1, h2, h3⟩
          have h2a : s.speakers ∉ speakersOf sessions rest :=
            (List.nodup_cons.mp h2).1
          have h2b := (List.nodup_cons.mp h2).2
          refine ⟨fun sid' h => h1 sid' (List.mem_cons_of_mem _ h), h2b, ?_⟩
          intro sp h hc
          rcases List.mem_append.mp hc with hc2 | hc2
          · exact (h3 sp (List.mem_cons_of_mem _ h)) hc2
          · have hss : sp = s.speakers := by simpa using hc2
            exact h2a (hss ▸ h)

theorem slotBlock_eq_nil_iff {sessions : List Session}
    {p : String × List String} :
    slotBlock sessions p = [] ↔
      p.2.length = 8 ∧ slotErrors sessions p.1 [] p.2 = [] := by
  rw [slotBlock, List.append_eq_nil, ite_singleton_eq_nil_iff, not_not]

theorem validationErrors_eq_nil_iff (schedule : Schedule)
    (sessions : List Session) :
    validationErrors schedule sessions = [] ↔
      schedule.length = 7 ∧
      (∀ p ∈ schedule, slotBlock sessions p = []) ∧
      missingSet schedule sessions = ∅ ∧
      extraSet schedule sessions = ∅ ∧
      (assignedIds schedule).Nodup := by
  rw [validationErrors]
  simp only [List.append_eq_nil, List.flatMap_eq_nil_iff,
    ite_singleton_eq_nil_iff, not_not, dupeIds_eq_nil_iff]
  constructor
  · rintro ⟨⟨⟨⟨h1, h2⟩, h3⟩, h4⟩, h5⟩
    exact ⟨h1, fun p hp => h2 p (mem_sortedSchedule.mpr hp), h3, h4, h5⟩
  · rintro ⟨h1, h2, h3, h4, h5⟩
    exact ⟨⟨⟨⟨h1, fun p hp => h2 p (mem_sortedSchedule.mp hp)⟩, h3⟩, h4⟩, h5⟩

theorem validate_ok_iff (schedule : Schedule) (sessions : List Session) :
    (validate_schedule schedule sessions).1 = true ↔
      validationErrors schedule sessions = [] := by
  simp [validate_schedule, List.isEmpty_iff]

end Lemmas

/-- C1: for every schedule and catalog, `validate_schedule` returns
normally — it is a total function in this embedding, mirroring that the
Python validator raises no control-flow exception — and its `ok`
component is `true` if and only if the collected error sequence is
empty. -/
theorem C1_validate_ok_iff_errors_empty (schedule : Schedule)
    (sessions : List Session) :
    (validate_schedule schedule sessions).1 = true ↔
      (validate_schedule schedule sessions).2 = [] := by
  simp [validate_schedule, List.isEmpty_iff]

/-- C10: `validate_schedule` is total on any slot-name-to-id-list
mapping; on the empty schedule with a non-empty catalog it returns
`ok = false` with exactly two errors: the slot-count error reporting 0
slots and one aggregate missing-sessions error naming every catalog
id. -/
theorem C10_validate_empty_schedule (sessions : List Session)
    (h : sessions ≠ []) :
    validate_schedule [] sessions =
      (false,
       [VError.slotCount 0,
        VError.missingSessions (catalogIds sessions)]) := by
  have hcat : catalogIds sessions ≠ ∅ := by
    cases sessions with
    | nil => exact absurd rfl h
    | cons s rest => simp [catalogIds]
  have herr : validationErrors [] sessions =
      [VError.slotCount 0, VError.missingSessions (catalogIds sessions)] := by
    rw [validationErrors]
    simp [sortedSchedule, List.insertionSort, assignedIds, missingSet,
      extraSet, dupeIds, firstOccurrences, firstOccAux, Finset.sdiff_empty,
      Finset.empty_sdiff, hcat]
  rw [validate_schedule, herr]
  rfl

/-- C10 witness: the empty schedule against a one-session catalog. -/
theorem C10_validate_empty_schedule_witness :
    validate_schedule [] [⟨"1", "t", "d", "sp", "tr"⟩] =
      (false, [VError.slotCount 0, VError.missingSessions {"1"}]) := by
  have h := C10_validate_empty_schedule [⟨"1", "t", "d", "sp", "tr"⟩]
    (by simp)
  rw [h]
  decide

/-- C3 counterexample: an id absent from the catalog does contribute an
error beyond the per-slot unknown-id report — the validator also emits
the aggregate unknown-session-ids error for it (`extra` check in the
source). -/
theorem C3_counterexample :
    VError.unknownIds {"9"} ∈
      (validate_schedule [("slot_1", ["9"])]
        [⟨"1", "", "", "Ada", "T"⟩]).2 ∧
    VError.unknownId "slot_1" "9" ∈
      (validate_schedule [("slot_1", ["9"])]
        [⟨"1", "", "", "Ada", "T"⟩]).2 := by
  decide

/-- C6 counterexample: `find_multi_session_speakers` keeps each
speaker's session ids in catalog order, not sorted — a catalog listing
id "2" before id "1" for the same speaker yields the group
`("Ada", ["2", "1"])`, which is not sorted. -/
theorem C6_counterexample :
    find_multi_session_speakers
        [⟨"2", "", "", "Ada", "T"⟩, ⟨"1", "", "", "Ada", "T"⟩] =
      [("Ada", ["2", "1"])] ∧
    ¬ List.Sorted (fun a b : String => strLe a b = true) ["2", "1"] := by
  decide

theorem lookup_eq_of_mem_of_nodupKeys :
    ∀ (l : Schedule), (l.map Prod.fst).Nodup →
      ∀ {k : String} {v : List String}, (k, v) ∈ l → l.lookup k = some v := by
  intro l
  induction l with
  | nil => intro _ k v h; cases h
  | cons p l ih =>
    intro hnd k v hmem
    rw [List.map_cons] at hnd
    have hnd2 := List.nodup_cons.mp hnd
    rcases List.mem_cons.mp hmem with h | h
    · rw [← h, List.lookup_cons]
      simp
    · have hk : (k == p.1) = false := by
        rw [beq_eq_false_iff_ne]
        intro he
        exact hnd2.1 (he ▸ List.mem_map.mpr ⟨(k, v), h, rfl⟩)
      cases p with
      | mk k' v' =>
        rw [List.lookup_cons, hk]
        exact ih hnd2.2 h

theorem mem_of_lookup_some :
    ∀ (l : Schedule) {k : String} {v : List String},
      l.lookup k = some v → (k, v) ∈ l := by
  intro l
  induction l with
  | nil => intro k v h; cases h
  | cons p l ih =>
    intro k v h
    cases p with
    | mk k' v' =>
      rw [List.lookup_cons] at h
      by_cases hk : k = k'
      · have hbe : (k == k') = true := beq_iff_eq.mpr hk
        rw [hbe] at h
        simp only [] at h
        have hv : v' = v := by injection h
        rw [hk, hv]
        exact List.mem_cons_self _ _
      · have hbe : (k == k') = false := beq_eq_false_iff_ne.mpr hk
        rw [hbe] at h
        exact List.mem_cons_of_mem _ (ih h)

theorem slotIdsOf_of_mem {s : Schedule} (hk : (s.map Prod.fst).Nodup)
    {k : String} {v : List String} (h : (k, v) ∈ s) : slotIdsOf s k = v := by
  rw [slotIdsOf, lookup_eq_of_mem_of_nodupKeys s hk h]
  rfl

theorem slotIdsOf_of_mem2 {s : Schedule} (hk : (s.map Prod.fst).Nodup)
    {p : String × List String} (h : p ∈ s) : slotIdsOf s p.1 = p.2 := by
  obtain ⟨a, b⟩ := p
  exact slotIdsOf_of_mem hk h

theorem mem_diffSchedules {cur prev : Schedule}
    (hk : (cur.map Prod.fst).Nodup) (c : String × Nat) :
    c ∈ diffSchedules cur prev ↔
      c.1 ∈ cur.map Prod.fst ∧ c.2 < 8 ∧
      (slotIdsOf cur c.1)[c.2]? ≠ (slotIdsOf prev c.1)[c.2]? := by
  rw [diffSchedules, List.mem_toFinset, List.mem_flatMap]
  constructor
  · rintro ⟨p, hp, hc⟩
    rw [List.mem_filterMap] at hc
    obtain ⟨i, hi, hg⟩ := hc
    by_cases hcond : p.2[i]? ≠ (slotIdsOf prev p.1)[i]?
    · rw [if_pos hcond] at hg
      have hce : (p.1, i) = c := by injection hg
      have hpc : p ∈ cur := mem_sortedSchedule.mp hp
      have hids : slotIdsOf cur p.1 = p.2 := slotIdsOf_of_mem2 hk hpc
      subst hce
      exact ⟨List.mem_map.mpr ⟨p, hpc, rfl⟩, List.mem_range.mp hi,
        by rw [hids]; exact hcond⟩
    · rw [if_neg hcond] at hg; cases hg
  · rintro ⟨h1, h2, h3⟩
    obtain ⟨p, hp, hfst⟩ := List.mem_map.mp h1
    have hids : slotIdsOf cur p.1 = p.2 := slotIdsOf_of_mem2 hk hp
    refine ⟨p, mem_sortedSchedule.mpr hp, ?_⟩
    rw [List.mem_filterMap]
    refine ⟨c.2, List.mem_range.mpr h2, ?_⟩
    have hcond : p.2[c.2]? ≠ (slotIdsOf prev p.1)[c.2]? := by
      rw [← hids, hfst]
      exact h3
    rw [if_pos hcond, hfst, Prod.mk.eta]

theorem mem_allDiffCoords {cur prev : Schedule} (c : String × Nat) :
    c ∈ allDiffCoords cur prev ↔
      (slotIdsOf cur c.1)[c.2]? ≠ (slotIdsOf prev c.1)[c.2]? := by
  rw [allDiffCoords, Finset.mem_filter]
  constructor
  · exact fun h => h.2
  · intro h
    refine ⟨?_, h⟩
    rw [List.mem_toFinset, List.mem_flatMap]
    have hside : (∃ x, (slotIdsOf cur c.1)[c.2]? = some x) ∨
        (∃ x, (slotIdsOf prev c.1)[c.2]? = some x) := by
      cases hcu : (slotIdsOf cur c.1)[c.2]? with
      | some x => exact Or.inl ⟨x, rfl⟩
      | none =>
        cases hpr : (slotIdsOf prev c.1)[c.2]? with
        | some x => exact Or.inr ⟨x, rfl⟩
        | none => rw [hcu, hpr] at h; exact absurd rfl h
    have hdomain : ∀ (side : Schedule), (side = cur ∨ side = prev) →
        (∃ x, (slotIdsOf side c.1)[c.2]? = some x) →
        ∃ p ∈ cur ++ prev,
          c ∈ (List.range
              (max (slotIdsOf cur p.1).length (slotIdsOf prev p.1).length)).map
            (fun i => (p.1, i)) := by
      rintro side hs ⟨x, hx⟩
      obtain ⟨hlt, -⟩ := List.getElem?_eq_some.mp hx
      have hlook : side.lookup c.1 = some (slotIdsOf side c.1) := by
        rw [slotIdsOf]
        cases hl : side.lookup c.1 with
        | some v => rfl
        | none =>
          rw [slotIdsOf, hl] at hx
          simp at hx
      have hmem : (c.1, slotIdsOf side c.1) ∈ side :=
        mem_of_lookup_some side hlook
      refine ⟨(c.1, slotIdsOf side c.1), ?_, ?_⟩
      · rcases hs with h | h
        · exact List.mem_append.mpr (Or.inl (h ▸ hmem))
        · exact List.mem_append.mpr (Or.inr (h ▸ hmem))
      · rw [List.mem_map]
        refine ⟨c.2, List.mem_range.mpr ?_, Prod.mk.eta⟩
        rcases hs with h | h <;> subst h
        · exact lt_of_lt_of_le hlt (le_max_left _ _)
        · exact lt_of_lt_of_le hlt (le_max_right _ _)
    rcases hside with hs | hs
    · exact hdomain cur (Or.inl rfl) hs
    · exact hdomain prev (Or.inr rfl) hs

/-- C8 (amended): the diff engine returns the empty set when the
current version is the first stored one; byte-identical schedules diff
to the empty set; and when exactly one `(slot, position)` entry differs
between the two schedules — provided that slot is present in the
current schedule and the position is below 8 — the diff set is exactly
that singleton coordinate.  (The claim as frozen omits the last
proviso; `C8_counterexample` shows it is needed.) -/
theorem C8_diff_engine :
    (∀ (versions : List Version) (showDiff : Bool),
        getDiffSet versions 0 showDiff = ∅) ∧
    (∀ (s : Schedule), (s.map Prod.fst).Nodup → diffSchedules s s = ∅) ∧
    (∀ (cur prev : Schedule) (slot : String) (pos : Nat),
        (cur.map Prod.fst).Nodup →
        allDiffCoords cur prev = {(slot, pos)} →
        slot ∈ cur.map Prod.fst → pos < 8 →
        diffSchedules cur prev = {(slot, pos)}) := by
  refine ⟨?_, ?_, ?_⟩
  · intro versions showDiff
    simp [getDiffSet]
  · intro s hk
    rw [Finset.eq_empty_iff_forall_not_mem]
    intro c hc
    exact ((mem_diffSchedules hk c).mp hc).2.2 rfl
  · intro cur prev slot pos hk hall hslot hpos
    ext c
    rw [mem_diffSchedules hk c, Finset.mem_singleton]
    constructor
    · rintro ⟨-, -, h3⟩
      have : c ∈ allDiffCoords cur prev := (mem_allDiffCoords c).mpr h3
      rw [hall, Finset.mem_singleton] at this
      exact this
    · intro h
      subst h
      refine ⟨hslot, hpos, ?_⟩
      have : (slot, pos) ∈ allDiffCoords cur prev := by
        rw [hall]
        exact Finset.mem_singleton_self _
      exact (mem_allDiffCoords _).mp this

/-- C8 counterexample: with current schedule empty and previous
schedule assigning one id, exactly one `(slot, position)` entry differs
between the two — namely `("slot_1", 0)` — yet the diff set is empty,
not a singleton: the engine only scans slots of the current schedule
(and positions 0–7). -/
theorem C8_counterexample :
    allDiffCoords [] [("slot_1", ["A"])] = {("slot_1", 0)} ∧
    diffSchedules [] [("slot_1", ["A"])] = ∅ := by
  decide

/-- C8 witness: two one-slot schedules differing exactly at position 1
of `slot_1`. -/
theorem C8_diff_engine_witness :
    diffSchedules [("slot_1", ["a", "b"])] [("slot_1", ["a", "c"])] =
      {("slot_1", 1)} :=
  C8_diff_engine.2.2 [("slot_1", ["a", "b"])] [("slot_1", ["a", "c"])]
    "slot_1" 1 (by decide) (by decide) (by decide) (by decide)

theorem le_foldl_max (l : List Int) : ∀ (a : Int), a ≤ l.foldl max a := by
  induction l with
  | nil => intro a; exact le_refl a
  | cons x l ih =>
    intro a
    rw [List.foldl_cons]
    exact le_trans (le_max_left a x) (ih (max a x))

theorem mem_le_foldl_max (l : List Int) :
    ∀ (a : Int), ∀ x ∈ l, x ≤ l.foldl max a := by
  induction l with
  | nil => intro a x hx; cases hx
  | cons y l ih =>
    intro a x hx
    rw [List.foldl_cons]
    rcases List.mem_cons.mp hx with h | h
    · rw [h]
      exact le_trans (le_max_right a y) (le_foldl_max l (max a y))
    · exact ih (max a y) x h

theorem foldl_max_mem (l : List Int) :
    ∀ (a : Int), l.foldl max a = a ∨ l.foldl max a ∈ l := by
  induction l with
  | nil => intro a; exact Or.inl rfl
  | cons x l ih =>
    intro a
    rw [List.foldl_cons]
    rcases ih (max a x) with h | h
    · rcases max_choice a x with hm | hm
      · exact Or.inl (h.trans hm)
      · rw [h, hm]
        exact Or.inr (List.mem_cons_self x l)
    · exact Or.inr (List.mem_cons_of_mem _ h)

theorem next_version_gt (versions : List Version) :
    ∀ w ∈ versions, w.version < next_version versions := by
  intro w hw
  rw [next_version]
  cases hm : versions.map (fun v => v.version) with
  | nil =>
    have hc : w.version ∈ versions.map (fun v => v.version) :=
      List.mem_map.mpr ⟨w, hw, rfl⟩
    rw [hm] at hc
    cases hc
  | cons x xs =>
    have hmem : w.version ∈ versions.map (fun v => v.version) :=
      List.mem_map.mpr ⟨w, hw, rfl⟩
    rw [hm] at hmem
    have hle : w.version ≤ xs.foldl max x := by
      rcases List.mem_cons.mp hmem with h | h
      · rw [h]; exact le_foldl_max xs x
      · exact mem_le_foldl_max xs x _ h
    rw [maxOr0]
    omega

theorem next_version_succ_of_mem (versions : List Version)
    (h : versions ≠ []) :
    ∃ w ∈ versions, next_version versions = w.version + 1 := by
  rw [next_version]
  cases hm : versions.map (fun v => v.version) with
  | nil =>
    exact absurd (List.map_eq_nil_iff.mp hm) h
  | cons x xs =>
    have hmm : xs.foldl max x ∈ x :: xs := by
      rcases foldl_max_mem xs x with hh | hh
      · rw [hh]; exact List.mem_cons_self x xs
      · exact List.mem_cons_of_mem _ hh
    rw [← hm] at hmm
    obtain ⟨w, hw, hwv⟩ := List.mem_map.mp hmm
    refine ⟨w, hw, ?_⟩
    rw [maxOr0, hwv]

/-- C2: `save_version` appends a new Version record carrying the
returned version number and the given schedule; the number is one
greater than the maximum stored version number (1 on an empty store:
every stored version is strictly smaller, and on a non-empty store the
number is some stored version's number plus one); and two appends on an
empty store yield versions numbered 1 and 2, which `load_versions`
returns in insertion order. -/
theorem C2_save_version_append :
    (∀ (store : Option (List Version)) (sched : Schedule)
        (label description created : String),
        (∃ v : Version,
          (save_version store sched label description created).2 =
            load_versions store ++ [v] ∧
          v.version = (save_version store sched label description created).1 ∧
          v.schedule = sched) ∧
        (load_versions store = [] →
          (save_version store sched label description created).1 = 1) ∧
        (∀ w ∈ load_versions store,
          w.version < (save_version store sched label description created).1) ∧
        (load_versions store ≠ [] →
          ∃ w ∈ load_versions store,
            (save_version store sched label description created).1 =
              w.version + 1)) ∧
    (∀ (s1 s2 : Schedule) (l1 d1 t1 l2 d2 t2 : String),
        (save_version none s1 l1 d1 t1).1 = 1 ∧
        (save_version (some (save_version none s1 l1 d1 t1).2)
            s2 l2 d2 t2).1 = 2 ∧
        ∃ v1 v2 : Version,
          load_versions
              (some (save_version (some (save_version none s1 l1 d1 t1).2)
                s2 l2 d2 t2).2) = [v1, v2] ∧
          v1.version = 1 ∧ v2.version = 2 ∧
          v1.schedule = s1 ∧ v2.schedule = s2) := by
  constructor
  · intro store sched label description created
    refine ⟨⟨_, rfl, rfl, rfl⟩, ?_, ?_, ?_⟩
    · intro h
      show next_version (load_versions store) = 1
      rw [h]
      rfl
    · intro w hw
      exact next_version_gt _ w hw
    · intro h
      exact next_version_succ_of_mem _ h
  · intro s1 s2 l1 d1 t1 l2 d2 t2
    exact ⟨rfl, rfl, _, _, rfl, rfl, rfl, rfl, rfl⟩

/-- C2 witness: a store holding one version numbered 5 gets a strictly
larger number on append, and an append on the absent store yields
version 1. -/
theorem C2_save_version_append_witness :
    (⟨5, "L", "D", "T", []⟩ : Version).version <
      (save_version (some [⟨5, "L", "D", "T", []⟩]) [] "" "" "").1 ∧
    (save_version none [] "" "" "").1 = 1 :=
  ⟨(C2_save_version_append.1 (some [⟨5, "L", "D", "T", []⟩])
      [] "" "" "").2.2.1 _ (List.mem_cons_self _ _),
   (C2_save_version_append.1 none [] "" "" "").2.1 rfl⟩

/-- C6 (amended): `find_multi_session_speakers` groups sessions by the
exact byte-identical speaker string and returns exactly those groups
containing more than one session, each group given as the speaker
paired with the sequence of its session ids in catalog order (the
frozen claim says "sorted"; `C6_counterexample` shows the order is the
catalog's). -/
theorem C6_find_multi_groups (sessions : List Session) (sp : String)
    (l : List String) :
    (sp, l) ∈ find_multi_session_speakers sessions ↔
      l = (sessions.filter (fun s => s.speakers = sp)).map (fun s => s.id) ∧
      1 < l.length := by
  rw [find_multi_session_speakers, List.mem_filter]
  simp only [List.mem_map, decide_eq_true_eq]
  constructor
  · rintro ⟨⟨sp', hsp', heq⟩, hlen⟩
    injection heq with h1 h2
    subst h1
    subst h2
    exact ⟨rfl, hlen⟩
  · rintro ⟨hl, hlen⟩
    refine ⟨⟨sp, ?_, ?_⟩, hlen⟩
    · rw [mem_firstOccurrences]
      have hne : (sessions.filter (fun s => s.speakers = sp)) ≠ [] := by
        intro hc
        rw [hl, hc] at hlen
        simp at hlen
      obtain ⟨s, hs⟩ := List.exists_mem_of_ne_nil _ hne
      have hmem := List.mem_of_mem_filter hs
      have hspk : s.speakers = sp := by simpa using List.of_mem_filter hs
      exact List.mem_map.mpr ⟨s, hmem, hspk⟩
    · rw [hl]

theorem count_slotTracks (sessions : List Session) (ids : List String)
    (t : String) :
    (slotTracks sessions ids).count t =
      (ids.filter (fun sid =>
        (lookupSession sessions sid).map (fun s => s.track) = some t)).length := by
  rw [slotTracks, List.count_filterMap, List.countP_eq_length_filter]
  congr 1
  apply List.filter_congr
  intro a _
  rw [Bool.eq_iff_iff]
  simp

theorem mem_counterOf {l : List String} {t : String} {c : Nat} :
    (t, c) ∈ counterOf l ↔ t ∈ l ∧ c = l.count t := by
  rw [counterOf, List.mem_map]
  constructor
  · rintro ⟨t', ht', heq⟩
    injection heq with h1 h2
    subst h1
    subst h2
    exact ⟨mem_firstOccurrences.mp ht', rfl⟩
  · rintro ⟨ht, hc⟩
    exact ⟨t, mem_firstOccurrences.mpr ht, by rw [hc]⟩

theorem firstOccurrences_perm_dedup (l : List String) :
    (firstOccurrences l).Perm l.dedup :=
  (List.perm_ext_iff_of_nodup (nodup_firstOccurrences l)
      (List.nodup_dedup l)).mpr
    (fun a => by rw [mem_firstOccurrences, List.mem_dedup])

theorem foldl_doubling (l : List (String × Nat)) : ∀ (a : Nat),
    l.foldl (fun td q => if 1 < q.2 then td + (q.2 - 1) else td) a =
      a + (l.map (fun q => q.2 - 1)).sum := by
  induction l with
  | nil => intro a; simp
  | cons q l ih =>
    intro a
    rw [List.foldl_cons]
    by_cases h : 1 < q.2
    · rw [if_pos h, ih]
      simp [Nat.add_assoc]
    · rw [if_neg h, ih]
      have hz : q.2 - 1 = 0 := by omega
      simp [hz]

theorem cts_foldl (sessions : List Session) (l : Schedule) :
    ∀ (acc : List (String × List (String × Nat)) × Nat),
      l.foldl (fun acc p =>
        let counts := counterOf (slotTracks sessions p.2)
        (acc.1 ++ [(p.1, counts)],
         counts.foldl (fun td q => if 1 < q.2 then td + (q.2 - 1) else td)
           acc.2)) acc =
      (acc.1 ++ l.map (fun p => (p.1, counterOf (slotTracks sessions p.2))),
       acc.2 + (l.map (fun p =>
         ((counterOf (slotTracks sessions p.2)).map
           (fun q => q.2 - 1)).sum)).sum) := by
  induction l with
  | nil => intro acc; simp
  | cons p l ih =>
    intro acc
    rw [List.foldl_cons, ih]
    simp [foldl_doubling, Nat.add_assoc]

theorem compute_track_stats_eq (schedule : Schedule)
    (sessions : List Session) :
    compute_track_stats schedule sessions =
      ((sortedSchedule schedule).map
          (fun p => (p.1, counterOf (slotTracks sessions p.2))),
       ((sortedSchedule schedule).map (fun p =>
         ((counterOf (slotTracks sessions p.2)).map
           (fun q => q.2 - 1)).sum)).sum) := by
  rw [compute_track_stats, cts_foldl]
  simp

/-- C7: `compute_track_stats` pairs each slot (in sorted-key order)
with the tally of how many catalog-known assigned sessions share each
track value — a pair `(t, c)` is in a slot's tally exactly when `c` is
positive and equals the number of that slot's ids resolving to track
`t`, ids unknown to the catalog silently excluded — and
`totalDoublings` equals the sum over every (slot, track) pair of
`max(0, count - 1)` (Nat-truncated subtraction). -/
theorem C7_compute_track_stats_spec (schedule : Schedule)
    (sessions : List Session) :
    List.Forall₂
      (fun (st : String × List (String × Nat)) (p : String × List String) =>
        st.1 = p.1 ∧
        ∀ (t : String) (c : Nat),
          ((t, c) ∈ st.2 ↔
            0 < c ∧
            c = (p.2.filter (fun sid =>
              (lookupSession sessions sid).map (fun s => s.track) =
                some t)).length))
      (compute_track_stats schedule sessions).1 (sortedSchedule schedule) ∧
    (compute_track_stats schedule sessions).2 =
      ((sortedSchedule schedule).map (fun p =>
        ((slotTracks sessions p.2).dedup.map (fun t =>
          (slotTracks sessions p.2).count t - 1)).sum)).sum := by
  rw [compute_track_stats_eq]
  constructor
  · rw [List.forall₂_map_left_iff]
    rw [List.forall₂_same]
    intro p _
    refine ⟨rfl, ?_⟩
    intro t c
    rw [mem_counterOf, count_slotTracks]
    constructor
    · rintro ⟨ht, hc⟩
      have hpos : 0 < (slotTracks sessions p.2).count t :=
        List.count_pos_iff.mpr ht
      rw [count_slotTracks] at hpos
      exact ⟨hc ▸ (count_slotTracks sessions p.2 t ▸ hpos), hc⟩
    · rintro ⟨hpos, hc⟩
      have ht : t ∈ slotTracks sessions p.2 := by
        rw [← List.count_pos_iff (a := t) (l := slotTracks sessions p.2),
          count_slotTracks]
        rw [hc] at hpos
        exact hpos
      exact ⟨ht, hc⟩
  · have hmap : ∀ (tr : List String),
        ((counterOf tr).map (fun q => q.2 - 1)).sum =
          (tr.dedup.map (fun t => tr.count t - 1)).sum := by
      intro tr
      rw [counterOf, List.map_map]
      exact ((firstOccurrences_perm_dedup tr).map
        (fun t => tr.count t - 1)).sum_eq
    simp only [hmap]

theorem processSlotSt_schedule (st : VState) (p : String × List String) :
    (processSlotSt st p).schedule = st.schedule := by
  rw [processSlotSt]
  by_cases h : p.2.length ≠ 8 <;> simp [h]

theorem processSlotSt_sessions (st : VState) (p : String × List String) :
    (processSlotSt st p).sessions = st.sessions := by
  rw [processSlotSt]
  by_cases h : p.2.length ≠ 8 <;> simp [h]

theorem processSlotSt_errors (st : VState) (p : String × List String) :
    (processSlotSt st p).errors = st.errors ++ slotBlock st.sessions p := by
  rw [processSlotSt, slotBlock]
  by_cases h : p.2.length ≠ 8 <;> simp [h]

theorem processSlotSt_assigned (st : VState) (p : String × List String) :
    (processSlotSt st p).assigned = st.assigned ++ p.2 := by
  rw [processSlotSt]
  by_cases h : p.2.length ≠ 8 <;> simp [h]

theorem foldl_processSlotSt (l : Schedule) : ∀ (st : VState),
    l.foldl processSlotSt st =
      { schedule := st.schedule, sessions := st.sessions,
        errors := st.errors ++ l.flatMap (slotBlock st.sessions),
        assigned := st.assigned ++ l.flatMap (fun p => p.2) } := by
  induction l with
  | nil => intro st; simp
  | cons p l ih =>
    intro st
    rw [List.foldl_cons, ih, processSlotSt_schedule, processSlotSt_sessions,
      processSlotSt_errors, processSlotSt_assigned]
    simp [List.append_assoc]

/-- C9: the validator never mutates its inputs.  Replaying
`validate_schedule` as explicit state updates over every list the
Python code touches, the final state carries the schedule and the
session catalog unchanged, and the returned pair agrees with the pure
`validate_schedule`. -/
theorem C9_validate_run_pure (schedule : Schedule) (sessions : List Session) :
    (validate_schedule_run schedule sessions).1.schedule = schedule ∧
    (validate_schedule_run schedule sessions).1.sessions = sessions ∧
    (validate_schedule_run schedule sessions).2 =
      validate_schedule schedule sessions := by
  rw [validate_schedule_run]
  simp only [foldl_processSlotSt]
  refine ⟨trivial, trivial, ?_⟩
  rw [validate_schedule]
  have herr :
      ((if schedule.length ≠ 7 then [VError.slotCount schedule.length]
          else []) ++
        (sortedSchedule schedule).flatMap (slotBlock sessions) ++
        (if catalogIds sessions \
            ([] ++ (sortedSchedule schedule).flatMap
              (fun p => p.2)).toFinset ≠ ∅ then
          [VError.missingSessions
            (catalogIds sessions \
              ([] ++ (sortedSchedule schedule).flatMap
                (fun p => p.2)).toFinset)]
        else []) ++
        (if ([] ++ (sortedSchedule schedule).flatMap
              (fun p => p.2)).toFinset \ catalogIds sessions ≠ ∅ then
          [VError.unknownIds
            (([] ++ (sortedSchedule schedule).flatMap
              (fun p => p.2)).toFinset \ catalogIds sessions)]
        else []) ++
        (if dupeIds ([] ++ (sortedSchedule schedule).flatMap
            (fun p => p.2)) ≠ [] then
          [VError.duplicateIds
            (dupeIds ([] ++ (sortedSchedule schedule).flatMap
              (fun p => p.2)))]
        else [])) = validationErrors schedule sessions := by
    rw [validationErrors, missingSet, extraSet, assignedIds]
    simp [List.append_assoc]
  rw [herr]

theorem ok_iff_values (schedule : Schedule) (sessions : List Session) :
    (validate_schedule schedule sessions).1 = true ↔
      schedule.length = 7 ∧
      (∀ v ∈ schedule.map (fun p => p.2),
        v.length = 8 ∧ (∀ sid ∈ v, (lookupSession sessions sid).isSome) ∧
        (speakersOf sessions v).Nodup) ∧
      catalogIds sessions ⊆ ((schedule.map (fun p => p.2)).flatten).toFinset ∧
      ((schedule.map (fun p => p.2)).flatten).toFinset ⊆ catalogIds sessions ∧
      ((schedule.map (fun p => p.2)).flatten).Nodup := by
  rw [validate_ok_iff, validationErrors_eq_nil_iff]
  have h1 := assignedIds_perm schedule
  rw [List.flatMap_def] at h1
  have hfin := List.toFinset_eq_of_perm _ _ h1
  have hnd := h1.nodup_iff
  rw [missingSet, extraSet, Finset.sdiff_eq_empty_iff_subset,
    Finset.sdiff_eq_empty_iff_subset, hfin, hnd]
  constructor
  · rintro ⟨ha, hb, hc, hd, he⟩
    refine ⟨ha, ?_, hc, hd, he⟩
    intro v hv
    obtain ⟨p, hp, hpv⟩ := List.mem_map.mp hv
    have hblk := slotBlock_eq_nil_iff.mp (hb p hp)
    have h2 := (slotErrors_eq_nil_iff sessions p.1 p.2 []).mp hblk.2
    exact hpv ▸ ⟨hblk.1, h2.1, h2.2.1⟩
  · rintro ⟨ha, hb, hc, hd, he⟩
    refine ⟨ha, ?_, hc, hd, he⟩
    intro p hp
    have hv := hb p.2 (List.mem_map.mpr ⟨p, hp, rfl⟩)
    rw [slotBlock_eq_nil_iff]
    exact ⟨hv.1, (slotErrors_eq_nil_iff sessions p.1 p.2 []).mpr
      ⟨hv.2.1, hv.2.2, by simp⟩⟩

theorem slotCond_perm (sessions : List Session) {v v' : List String}
    (h : v.Perm v')
    (hc : v.length = 8 ∧ (∀ sid ∈ v, (lookupSession sessions sid).isSome) ∧
      (speakersOf sessions v).Nodup) :
    v'.length = 8 ∧ (∀ sid ∈ v', (lookupSession sessions sid).isSome) ∧
      (speakersOf sessions v').Nodup := by
  obtain ⟨h1, h2, h3⟩ := hc
  refine ⟨h.length_eq ▸ h1, fun sid hs => h2 sid (h.mem_iff.mpr hs), ?_⟩
  exact ((h.filterMap _).nodup_iff).mp h3

theorem validate_ok_of_values_perm (sessions : List Session) {s s' : Schedule}
    (hlen : s.length = s'.length)
    (hperm : (s.map (fun p => p.2)).Perm (s'.map (fun p => p.2))) :
    (validate_schedule s sessions).1 = (validate_schedule s' sessions).1 := by
  rw [Bool.eq_iff_iff, ok_iff_values, ok_iff_values]
  have hf : ((s.map (fun p => p.2)).flatten).Perm
      ((s'.map (fun p => p.2)).flatten) := hperm.flatten
  rw [hlen, List.toFinset_eq_of_perm _ _ hf, hf.nodup_iff]
  constructor
  · rintro ⟨h1, h2, h3, h4, h5⟩
    exact ⟨h1, fun v hv => h2 v (hperm.mem_iff.mpr hv), h3, h4, h5⟩
  · rintro ⟨h1, h2, h3, h4, h5⟩
    exact ⟨h1, fun v hv => h2 v (hperm.mem_iff.mp hv), h3, h4, h5⟩

/-- C4: for every schedule and catalog, permuting the entries within
any single slot leaves the `ok` result of `validate_schedule`
unchanged, and permuting which slot name holds which entry sequence
(same keys, values redistributed) leaves `ok` unchanged as well. -/
theorem C4_perm_invariance :
    (∀ (sessions : List Session) (pre post : Schedule) (name : String)
        (ids ids' : List String), ids.Perm ids' →
        (validate_schedule (pre ++ (name, ids) :: post) sessions).1 =
          (validate_schedule (pre ++ (name, ids') :: post) sessions).1) ∧
    (∀ (sessions : List Session) (s s' : Schedule),
        s.map (fun p => p.1) = s'.map (fun p => p.1) →
        (s.map (fun p => p.2)).Perm (s'.map (fun p => p.2)) →
        (validate_schedule s sessions).1 =
          (validate_schedule s' sessions).1) := by
  constructor
  · intro sessions pre post name ids ids' h
    rw [Bool.eq_iff_iff, ok_iff_values, ok_iff_values]
    have hf : (((pre ++ (name, ids) :: post).map (fun p => p.2)).flatten).Perm
        (((pre ++ (name, ids') :: post).map (fun p => p.2)).flatten) := by
      simp only [List.map_append, List.map_cons, List.flatten_append,
        List.flatten_cons]
      exact List.Perm.append_left _ (h.append_right _)
    have hlen : (pre ++ (name, ids) :: post).length =
        (pre ++ (name, ids') :: post).length := by simp
    rw [hlen, List.toFinset_eq_of_perm _ _ hf, hf.nodup_iff]
    constructor
    · rintro ⟨h1, h2, h3, h4, h5⟩
      refine ⟨h1, ?_, h3, h4, h5⟩
      simp only [List.map_append, List.map_cons, List.mem_append,
        List.mem_cons] at h2 ⊢
      intro v hv
      rcases hv with hv | hv | hv
      · exact h2 v (Or.inl hv)
      · subst hv
        exact slotCond_perm sessions h (h2 ids (Or.inr (Or.inl rfl)))
      · exact h2 v (Or.inr (Or.inr hv))
    · rintro ⟨h1, h2, h3, h4, h5⟩
      refine ⟨h1, ?_, h3, h4, h5⟩
      simp only [List.map_append, List.map_cons, List.mem_append,
        List.mem_cons] at h2 ⊢
      intro v hv
      rcases hv with hv | hv | hv
      · exact h2 v (Or.inl hv)
      · subst hv
        exact slotCond_perm sessions h.symm (h2 ids' (Or.inr (Or.inl rfl)))
      · exact h2 v (Or.inr (Or.inr hv))
  · intro sessions s s' hkeys hperm
    have hlen : s.length = s'.length := by
      have := congrArg List.length hkeys
      simpa using this
    exact validate_ok_of_values_perm sessions hlen hperm

/-- C4 witness: swapping the two entries of a slot leaves `ok`
unchanged. -/
theorem C4_perm_invariance_witness :
    (validate_schedule [("slot_1", ["1", "2"])] []).1 =
      (validate_schedule [("slot_1", ["2", "1"])] []).1 :=
  C4_perm_invariance.1 [] [] [] "slot_1" ["1", "2"] ["2", "1"] (by decide)

theorem flatMap_eq_of_single {α β : Type} (f : α → List β) (p : α) :
    ∀ (l : List α), l.Nodup → p ∈ l → (∀ q ∈ l, q = p ∨ f q = []) →
      l.flatMap f = f p := by
  intro l
  induction l with
  | nil => intro _ hp; cases hp
  | cons q l ih =>
    intro hnd hp hall
    have hnd2 := List.nodup_cons.mp hnd
    rw [List.flatMap_cons]
    rcases List.mem_cons.mp hp with hpq | hpl
    · have hnil : l.flatMap f = [] := by
        rw [List.flatMap_eq_nil_iff]
        intro x hx
        rcases hall x (List.mem_cons_of_mem _ hx) with h | h
        · subst h
          exact absurd (hpq ▸ hx) hnd2.1
        · exact h
      rw [← hpq, hnil, List.append_nil]
    · have hq : q ≠ p := by
        intro he
        exact hnd2.1 (he ▸ hpl)
      have hfq : f q = [] := (hall q (List.mem_cons_self q l)).resolve_left hq
      rw [hfq, List.nil_append]
      exact ih hnd2.2 hpl (fun x hx => hall x (List.mem_cons_of_mem _ hx))

/-- C5: removing one session id from a slot of a schedule that passes
validation (so the slot shrinks to 7 entries) makes `validate_schedule`
report exactly one per-slot length error stating expected 8 got 7 for
that slot and exactly one aggregate missing-sessions error naming
exactly that id, and no other errors (so `ok` is false). -/
theorem C5_remove_one (sessions : List Session) (pre post : Schedule)
    (name sid : String) (l1 l2 : List String)
    (hkeys : ((pre ++ (name, l1 ++ sid :: l2) :: post).map
        (fun p => p.1)).Nodup)
    (hok : (validate_schedule (pre ++ (name, l1 ++ sid :: l2) :: post)
        sessions).1 = true) :
    validate_schedule (pre ++ (name, l1 ++ l2) :: post) sessions =
      (false, [VError.slotLen name 7, VError.missingSessions {sid}]) := by
  obtain ⟨hlen7, hslots, hsub1, hsub2, hnd⟩ := (ok_iff_values _ _).mp hok
  simp only [List.map_append, List.map_cons, List.flatten_append,
    List.flatten_cons] at hsub1 hsub2 hnd
  have hperm :
      ((List.map (fun p => p.2) pre).flatten ++
        ((l1 ++ sid :: l2) ++ (List.map (fun p => p.2) post).flatten)).Perm
      (sid :: ((List.map (fun p => p.2) pre).flatten ++
        ((l1 ++ l2) ++ (List.map (fun p => p.2) post).flatten))) := by
    have step1 : ((l1 ++ sid :: l2) ++
        (List.map (fun p => p.2) post).flatten).Perm
        ((sid :: (l1 ++ l2)) ++ (List.map (fun p => p.2) post).flatten) :=
      List.perm_middle.append_right _
    exact (List.Perm.append_left _ step1).trans List.perm_middle
  have hndcons := hperm.nodup_iff.mp hnd
  have hsid_notin := (List.nodup_cons.mp hndcons).1
  have hasg_nd := (List.nodup_cons.mp hndcons).2
  have hcat : catalogIds sessions =
      insert sid ((List.map (fun p => p.2) pre).flatten ++
        ((l1 ++ l2) ++ (List.map (fun p => p.2) post).flatten)).toFinset := by
    have he : catalogIds sessions =
        ((List.map (fun p => p.2) pre).flatten ++
          ((l1 ++ sid :: l2) ++
            (List.map (fun p => p.2) post).flatten)).toFinset :=
      Finset.Subset.antisymm hsub1 hsub2
    rw [he, List.toFinset_eq_of_perm _ _ hperm, List.toFinset_cons]
  have hkeys2 : ((pre ++ (name, l1 ++ l2) :: post).map
      (fun p => p.1)).Nodup := by
    simp only [List.map_append, List.map_cons] at hkeys ⊢
    exact hkeys
  have hperm2 : (assignedIds (pre ++ (name, l1 ++ l2) :: post)).Perm
      ((List.map (fun p => p.2) pre).flatten ++
        ((l1 ++ l2) ++ (List.map (fun p => p.2) post).flatten)) := by
    have h := assignedIds_perm (pre ++ (name, l1 ++ l2) :: post)
    rw [List.flatMap_def] at h
    simpa [List.map_append, List.map_cons, List.flatten_append,
      List.flatten_cons] using h
  have hfin2 := List.toFinset_eq_of_perm _ _ hperm2
  have hcond := hslots (l1 ++ sid :: l2)
    (List.mem_map.mpr ⟨(name, l1 ++ sid :: l2),
      List.mem_append.mpr (Or.inr (List.mem_cons_self _ _)), rfl⟩)
  have hlen7' : (l1 ++ l2).length = 7 := by
    have h8 := hcond.1
    simp only [List.length_append, List.length_cons] at h8 ⊢
    omega
  have hknown2 : ∀ x ∈ l1 ++ l2, (lookupSession sessions x).isSome := by
    intro x hx
    apply hcond.2.1
    rcases List.mem_append.mp hx with h | h
    · exact List.mem_append.mpr (Or.inl h)
    · exact List.mem_append.mpr (Or.inr (List.mem_cons_of_mem _ h))
  have hsubl : List.Sublist (l1 ++ l2) (l1 ++ sid :: l2) :=
    (List.sublist_cons_self sid l2).append_left l1
  have hspk2 : (speakersOf sessions (l1 ++ l2)).Nodup :=
    (hsubl.filterMap _).nodup hcond.2.2
  have hblk : slotBlock sessions (name, l1 ++ l2) = [VError.slotLen name 7] := by
    rw [slotBlock]
    have hse : slotErrors sessions name [] (l1 ++ l2) = [] :=
      (slotErrors_eq_nil_iff sessions name (l1 ++ l2) []).mpr
        ⟨hknown2, hspk2, by simp⟩
    rw [hse, List.append_nil, hlen7']
    simp
  have hflat : (sortedSchedule (pre ++ (name, l1 ++ l2) :: post)).flatMap
      (slotBlock sessions) = [VError.slotLen name 7] := by
    have hall : ∀ q ∈ sortedSchedule (pre ++ (name, l1 ++ l2) :: post),
        q = (name, l1 ++ l2) ∨ slotBlock sessions q = [] := by
      intro q hq
      rcases List.mem_append.mp (mem_sortedSchedule.mp hq) with hq2 | hq2
      · right
        have hc := hslots q.2 (List.mem_map.mpr
          ⟨q, List.mem_append.mpr (Or.inl hq2), rfl⟩)
        exact slotBlock_eq_nil_iff.mpr
          ⟨hc.1, (slotErrors_eq_nil_iff sessions q.1 q.2 []).mpr
            ⟨hc.2.1, hc.2.2, by simp⟩⟩
      · rcases List.mem_cons.mp hq2 with hq3 | hq3
        · exact Or.inl hq3
        · right
          have hc := hslots q.2 (List.mem_map.mpr
            ⟨q, List.mem_append.mpr (Or.inr (List.mem_cons_of_mem _ hq3)),
              rfl⟩)
          exact slotBlock_eq_nil_iff.mpr
            ⟨hc.1, (slotErrors_eq_nil_iff sessions q.1 q.2 []).mpr
              ⟨hc.2.1, hc.2.2, by simp⟩⟩
    have hsnd : (sortedSchedule (pre ++ (name, l1 ++ l2) :: post)).Nodup :=
      (sortedSchedule_perm _).nodup_iff.mpr (List.Nodup.of_map _ hkeys2)
    have hsmem : (name, l1 ++ l2) ∈
        sortedSchedule (pre ++ (name, l1 ++ l2) :: post) :=
      mem_sortedSchedule.mpr
        (List.mem_append.mpr (Or.inr (List.mem_cons_self _ _)))
    exact (flatMap_eq_of_single (slotBlock sessions) (name, l1 ++ l2) _
      hsnd hsmem hall).trans hblk
  have hmiss : missingSet (pre ++ (name, l1 ++ l2) :: post) sessions =
      {sid} := by
    rw [missingSet, hfin2, hcat]
    ext x
    simp only [Finset.mem_sdiff, Finset.mem_insert, Finset.mem_singleton]
    constructor
    · rintro ⟨h1 | h1, h2⟩
      · exact h1
      · exact absurd h1 h2
    · rintro rfl
      refine ⟨Or.inl rfl, ?_⟩
      rw [List.mem_toFinset]
      exact hsid_notin
  have hext : extraSet (pre ++ (name, l1 ++ l2) :: post) sessions = ∅ := by
    rw [extraSet, hfin2, hcat, Finset.sdiff_eq_empty_iff_subset]
    exact Finset.subset_insert _ _
  have hdup : dupeIds (assignedIds (pre ++ (name, l1 ++ l2) :: post)) = [] :=
    dupeIds_eq_nil_iff.mpr (hperm2.nodup_iff.mpr hasg_nd)
  have hlenS : (pre ++ (name, l1 ++ l2) :: post).length = 7 := by
    simp only [List.length_append, List.length_cons] at hlen7 ⊢
    omega
  have herr : validationErrors (pre ++ (name, l1 ++ l2) :: post) sessions =
      [VError.slotLen name 7, VError.missingSessions {sid}] := by
    rw [validationErrors, hflat, hmiss, hext, hdup, hlenS]
    simp
  rw [validate_schedule, herr]
  rfl

/-- C5 witness: removing id "1" from the first slot of a passing
7×8 demo schedule over the 56-session demo catalog. -/
theorem C5_remove_one_witness :
    validate_schedule (("slot_1", ["2", "3", "4", "5", "6", "7", "8"]) ::
        demoRest) demoSessions =
      (false, [VError.slotLen "slot_1" 7, VError.missingSessions {"1"}]) :=
  C5_remove_one demoSessions [] demoRest "slot_1" "1" []
    ["2", "3", "4", "5", "6", "7", "8"] (by decide) (by decide)

theorem mem_ite_singleton {α : Type} {c : Prop} [Decidable c] {x e : α}
    (h : e ∈ (if c then [x] else [])) : e = x ∧ c := by
  split at h
  · exact ⟨List.mem_singleton.mp h, by assumption⟩
  · cases h

theorem lookupSession_eq_none_iff {sessions : List Session} {sid : String} :
    lookupSession sessions sid = none ↔ sid ∉ catalogIds sessions := by
  rw [lookupSession, List.find?_eq_none, catalogIds, List.mem_toFinset]
  constructor
  · intro h hc
    obtain ⟨s, hs, hid⟩ := List.mem_map.mp hc
    have := h s (List.mem_reverse.mpr hs)
    simp [hid] at this
  · intro h s hs
    simp only [decide_eq_true_eq]
    intro hid
    exact h (List.mem_map.mpr ⟨s, List.mem_reverse.mp hs, hid⟩)

theorem unknownId_mem_slotErrors (sessions : List Session) (slot : String)
    {sid : String} (hun : lookupSession sessions sid = none)
    (ids : List String) : ∀ (seen : List String), sid ∈ ids →
    VError.unknownId slot sid ∈ slotErrors sessions slot seen ids := by
  induction ids with
  | nil => intro seen h; cases h
  | cons x rest ih =>
    intro seen hmem
    rw [slotErrors]
    cases hl : lookupSession sessions x with
    | none =>
      rcases List.mem_cons.mp hmem with h | h
      · rw [h]
        exact List.mem_cons_self _ _
      · exact List.mem_cons_of_mem _ (ih seen h)
    | some s =>
      rcases List.mem_cons.mp hmem with h | h
      · rw [← h] at hl
        rw [hl] at hun
        cases hun
      · exact List.mem_append.mpr (Or.inr (ih (seen ++ [s.speakers]) h))

theorem slotErrors_shape (sessions : List Session) (slot : String)
    (ids : List String) : ∀ (seen : List String) (e : VError),
    e ∈ slotErrors sessions slot seen ids →
    (∃ sp, e = VError.dupSpeaker slot sp) ∨
      (∃ x, e = VError.unknownId slot x) := by
  induction ids with
  | nil => intro seen e h; cases h
  | cons x rest ih =>
    intro seen e h
    rw [slotErrors] at h
    cases hl : lookupSession sessions x with
    | none =>
      rw [hl] at h
      rcases List.mem_cons.mp h with h2 | h2
      · exact Or.inr ⟨x, h2⟩
      · exact ih seen e h2
    | some s =>
      rw [hl] at h
      rcases List.mem_append.mp h with h2 | h2
      · exact Or.inl ⟨s.speakers, (mem_ite_singleton h2).1⟩
      · exact ih (seen ++ [s.speakers]) e h2

theorem mem_validationErrors_missing {schedule : Schedule}
    {sessions : List Session} {m : Finset String}
    (hm : VError.missingSessions m ∈ validationErrors schedule sessions) :
    m = missingSet schedule sessions := by
  rw [validationErrors] at hm
  simp only [List.mem_append] at hm
  rcases hm with ((((h | h) | h) | h) | h)
  · exact VError.noConfusion (mem_ite_singleton h).1
  · obtain ⟨p, -, he⟩ := List.mem_flatMap.mp h
    rw [slotBlock] at he
    rcases List.mem_append.mp he with h2 | h2
    · exact VError.noConfusion (mem_ite_singleton h2).1
    · rcases slotErrors_shape sessions p.1 p.2 [] _ h2 with ⟨sp, hsp⟩ | ⟨x, hx⟩
      · exact VError.noConfusion hsp
      · exact VError.noConfusion hx
  · have := (mem_ite_singleton h).1
    injection this
  · exact VError.noConfusion (mem_ite_singleton h).1
  · exact VError.noConfusion (mem_ite_singleton h).1

theorem slotErrors_filter_dup (sessions : List Session) (slot : String)
    (ids : List String) : ∀ (seen : List String),
    (slotErrors sessions slot seen ids).filter isDupSpeakerE =
      slotErrors sessions slot seen
        (ids.filter (fun x => (lookupSession sessions x).isSome)) := by
  induction ids with
  | nil => intro seen; rfl
  | cons x rest ih =>
    intro seen
    rw [slotErrors]
    cases hl : lookupSession sessions x with
    | none =>
      rw [List.filter_cons]
      have hd : isDupSpeakerE (VError.unknownId slot x) = false := rfl
      rw [hd]
      simp only [Bool.false_eq_true, if_false]
      rw [ih seen, List.filter_cons]
      have hf : (lookupSession sessions x).isSome = false := by
        rw [hl]
        rfl
      rw [hf]
      simp only [Bool.false_eq_true, if_false]
    | some s =>
      rw [List.filter_append]
      have hone : ((if s.speakers ∈ seen then
          [VError.dupSpeaker slot s.speakers] else []).filter
            isDupSpeakerE) =
          (if s.speakers ∈ seen then
            [VError.dupSpeaker slot s.speakers] else []) := by
        split
        · rfl
        · rfl
      rw [hone, ih (seen ++ [s.speakers]), List.filter_cons]
      have hf : (lookupSession sessions x).isSome = true := by
        rw [hl]
        rfl
      rw [hf]
      simp only [if_true]
      rw [slotErrors, hl]

/-- C3 (amended): a session id assigned in some slot but absent from
the catalog yields the per-slot unknown-session-id error for that slot;
it is excluded from coverage bookkeeping (it never appears in a
missing-sessions payload); it additionally appears in the one aggregate
unknown-session-ids error (the frozen claim denies this aggregate
error; `C3_counterexample` exhibits it); and it is excluded from the
speaker-conflict check — filtering a slot's ids down to catalog-known
ones leaves the duplicate-speaker error sequence unchanged. -/
theorem C3_unknown_id (sessions : List Session) (schedule : Schedule)
    (name : String) (ids : List String) (sid : String)
    (hmem : (name, ids) ∈ schedule) (hin : sid ∈ ids)
    (hun : sid ∉ catalogIds sessions) :
    VError.unknownId name sid ∈ (validate_schedule schedule sessions).2 ∧
    (∀ m, VError.missingSessions m ∈
        (validate_schedule schedule sessions).2 → sid ∉ m) ∧
    (∃ ex, VError.unknownIds ex ∈ (validate_schedule schedule sessions).2 ∧
      sid ∈ ex) ∧
    (∀ (slot : String) (l : List String),
      (slotErrors sessions slot [] l).filter isDupSpeakerE =
        slotErrors sessions slot []
          (l.filter (fun x => (lookupSession sessions x).isSome))) := by
  have hlook : lookupSession sessions sid = none :=
    lookupSession_eq_none_iff.mpr hun
  have herr2 : (validate_schedule schedule sessions).2 =
      validationErrors schedule sessions := rfl
  refine ⟨?_, ?_, ?_, fun slot l => slotErrors_filter_dup sessions slot l []⟩
  · rw [herr2, validationErrors]
    simp only [List.mem_append]
    refine Or.inl (Or.inl (Or.inl (Or.inr ?_)))
    refine List.mem_flatMap.mpr ⟨(name, ids), mem_sortedSchedule.mpr hmem, ?_⟩
    rw [slotBlock]
    exact List.mem_append.mpr
      (Or.inr (unknownId_mem_slotErrors sessions name hlook ids [] hin))
  · intro m hmmem
    rw [herr2] at hmmem
    rw [mem_validationErrors_missing hmmem, missingSet]
    intro hc
    exact hun (Finset.mem_sdiff.mp hc).1
  · have hassigned : sid ∈ assignedIds schedule := by
      rw [assignedIds]
      exact List.mem_flatMap.mpr ⟨(name, ids), mem_sortedSchedule.mpr hmem, hin⟩
    have hextmem : sid ∈ extraSet schedule sessions := by
      rw [extraSet, Finset.mem_sdiff]
      exact ⟨List.mem_toFinset.mpr hassigned, hun⟩
    refine ⟨extraSet schedule sessions, ?_, hextmem⟩
    rw [herr2, validationErrors]
    simp only [List.mem_append]
    refine Or.inl (Or.inr ?_)
    rw [if_pos (Finset.ne_empty_of_mem hextmem)]
    exact List.mem_singleton.mpr rfl

/-- C3 witness: id "9" assigned in `slot_1` but absent from the
one-session catalog. -/
theorem C3_unknown_id_witness :
    VError.unknownId "slot_1" "9" ∈
      (validate_schedule [("slot_1", ["9"])]
        [⟨"1", "", "", "Ada", "T"⟩]).2 :=
  (C3_unknown_id [⟨"1", "", "", "Ada", "T"⟩] [("slot_1", ["9"])]
    "slot_1" ["9"] "9" (List.mem_cons_self _ _) (List.mem_cons_self _ _)
    (by decide)).1
